import Mathlib

/-!
Verification of the kazel generator pipeline (`kazel/generator.go`):
tag extraction (`extractTags` driven by the regular expression `genTagRe`),
the directory walk (`findGeneratorTags` built on `filepath.Walk`),
the set-to-sorted-slice conversion (`flattened`), and the top-level
generation pass (`walkGenerated`).

The Go code is shallowly embedded: file contents are `String`s, the regular
expression `//\s*\+k8s:([^\s=]+)(?:=(\S+))\s*\n` is compiled by hand into a
deterministic scanner (the pattern has no genuine backtracking: each greedy
piece is followed by a character its class excludes, except the final
`\s*\n`, which selects the last newline of the whitespace run), Go maps
become association lists holding insertion order, the innermost
`map[string]bool` set becomes a `Finset String`, and `filepath.Walk` becomes
a mutual recursion over an explicit filesystem tree that reproduces the
`SkipDir` propagation rules of the Go standard library.
-/

/-- Go's regexp character class `\s`, i.e. `[\t\n\f\r ]`. -/
def isSpaceGo (c : Char) : Bool :=
  c = '\t' || c = '\n' || c = '\x0c' || c = '\r' || c = ' '

/-- Suffix test (`strings.HasSuffix`) used by the walker. -/
def hasSuffix (s suffix : String) : Bool :=
  suffix.data.isSuffixOf s.data

/-- Split on every comma, keeping empty pieces (`strings.Split(s, ",")`). -/
def splitCommaAux : List Char → List Char → List String
  | [], acc => [String.mk acc.reverse]
  | c :: rest, acc =>
    if c = ',' then String.mk acc.reverse :: splitCommaAux rest []
    else splitCommaAux rest (c :: acc)

def splitComma (s : String) : List String :=
  splitCommaAux s.data []

/-- One attempt to match `genTagRe` = `//\s*\+k8s:([^\s=]+)(?:=(\S+))\s*\n`
at the head of `l`.  On success returns the two captured groups (tag name
and raw value payload) together with the text remaining after the match.
The final `\s*\n` matches greedily: the match ends just after the last
newline of the whitespace run that follows the value payload. -/
def matchAt (l : List Char) : Option (String × String × List Char) :=
  match l with
  | '/' :: '/' :: r0 =>
    match r0.dropWhile isSpaceGo with
    | '+' :: 'k' :: '8' :: 's' :: ':' :: r1 =>
      let tag := r1.takeWhile (fun c => !isSpaceGo c && c ≠ '=')
      match tag, r1.dropWhile (fun c => !isSpaceGo c && c ≠ '=') with
      | _ :: _, '=' :: r2 =>
        let value := r2.takeWhile (fun c => !isSpaceGo c)
        match value with
        | [] => none
        | _ :: _ =>
          let r3 := r2.dropWhile (fun c => !isSpaceGo c)
          let ws := r3.takeWhile isSpaceGo
          -- chars of the whitespace run strictly after its last newline
          let tailWs := (ws.reverse.takeWhile (fun c => c ≠ '\n')).reverse
          if tailWs.length = ws.length then none
          else some (String.mk tag, String.mk value, tailWs ++ r3.drop ws.length)
      | _, _ => none
    | _ => none
  | _ => none

/-- All matches, `genTagRe.FindAllSubmatch(b, -1)`: scan left to right, taking the
leftmost match at each point and resuming after it (matches never overlap).
The fuel argument is the length of the remaining text; every step consumes
at least one character, so the fuel never runs out. -/
def findMatchesAux : Nat → List Char → List (String × String)
  | 0, _ => []
  | _ + 1, [] => []
  | fuel + 1, c :: rest =>
    match matchAt (c :: rest) with
    | some (t, v, rem) => (t, v) :: findMatchesAux fuel rem
    | none => findMatchesAux fuel rest

def findMatches (l : List Char) : List (String × String) :=
  findMatchesAux l.length l

/-- Lookup in an association list (presence in a Go map). -/
def lookupTag (t : String) : List (String × List String) → Option (List String)
  | [] => none
  | (k, vs) :: rest => if k = t then some vs else lookupTag t rest

/-- Map update `m[k] = f(m[k])` on an association list: in place when the key is
present, append a fresh binding otherwise (Go map insertion). -/
def updAssoc {β : Type} (k : String) (f : Option β → β) :
    List (String × β) → List (String × β)
  | [] => [(k, f none)]
  | (k', b) :: rest =>
    if k' = k then (k', f (some b)) :: rest else (k', b) :: updAssoc k f rest

/-- The body of the `for _, m := range matches` loop of `extractTags`:
an unrequested tag is discarded, otherwise the comma-split values are
appended to the tag's slice (`tags[tag] = append(tags[tag], ...)`).
The `len(m) >= 3` guard of the Go loop always holds: `genTagRe` has exactly
two capture groups, both mandatory, so every submatch slice has length 3. -/
def tagStep (requestedTags : List String)
    (tags : List (String × List String)) (m : String × String) :
    List (String × List String) :=
  if requestedTags.contains m.1 then
    updAssoc m.1 (fun o => o.getD [] ++ splitComma m.2) tags
  else tags

def buildTags (ms : List (String × String)) (requestedTags : List String) :
    List (String × List String) :=
  ms.foldl (tagStep requestedTags) []

/-- Function `extractTags` from `kazel/generator.go`: find all `genTagRe` matches in
`b` and build the map of requested tag names to their value slices. -/
def extractTags (b : String) (requestedTags : List String) :
    List (String × List String) :=
  buildTags (findMatches b.data) requestedTags

example : extractTags "// +k8s:client-gen=true\n" ["client-gen"] =
    [("client-gen", ["true"])] := by decide

example : extractTags "// +k8s:client-gen=deepcopy,listers\n" ["client-gen"] =
    [("client-gen", ["deepcopy", "listers"])] := by decide

example : extractTags "// +k8s:other=true\n" ["client-gen"] = [] := by decide

example : extractTags "// +k8s:t=a,b,c\n// +k8s:t=d\n" ["t"] =
    [("t", ["a", "b", "c", "d"])] := by decide

example : extractTags "// +k8s:t=a,,b\n" ["t"] = [("t", ["a", "", "b"])] := by
  decide

example : extractTags "no tags here" ["t"] = [] := by decide

/-! ## Aggregate index: `generatorTagsValuesPkgsMap` -/

/-- Shape `{tagName: {value: {pkgs}}}` — the two outer Go maps become association
lists (holding insertion order), the innermost `map[string]bool` set becomes
a `Finset String`. -/
abbrev generatorTagsValuesPkgsMap : Type :=
  List (String × List (String × Finset String))

/-- The merge step of `findGeneratorTags` for one tag/value/package triple:
make the two nested maps if absent, then `tagsValuesPkgs[tag][v][pkg] = true`. -/
def insertPkg (m : generatorTagsValuesPkgsMap) (tag v pkg : String) :
    generatorTagsValuesPkgsMap :=
  updAssoc tag
    (fun o => updAssoc v (fun o2 => insert pkg (o2.getD ∅)) (o.getD [])) m

/-- The `for tag, values := range extractTags(...)` merge loop. -/
def mergeTags (m : generatorTagsValuesPkgsMap) (pkg : String)
    (ts : List (String × List String)) : generatorTagsValuesPkgsMap :=
  ts.foldl (fun a tv => tv.2.foldl (fun a2 v => insertPkg a2 tv.1 v pkg) a) m

/-- Lexicographic comparison of character sequences by codepoint, the order
`sort.Strings` sorts by (Go compares strings byte-wise, which on valid
UTF-8 agrees with codepoint order). -/
def leChars : List Char → List Char → Bool
  | [], _ => true
  | _ :: _, [] => false
  | a :: as, b :: bs =>
    if a.toNat < b.toNat then true
    else if b.toNat < a.toNat then false
    else leChars as bs

/-- The string order used by `sort.Strings`. -/
def strLe (a b : String) : Prop :=
  leChars a.data b.data = true

instance : DecidableRel strLe :=
  fun a b => instDecidableEqBool (leChars a.data b.data) true

theorem leChars_total (a : List Char) :
    ∀ b, leChars a b = true ∨ leChars b a = true := by
  induction a with
  | nil => intro b; exact Or.inl rfl
  | cons x xs ih =>
    intro b
    cases b with
    | nil => exact Or.inr rfl
    | cons y ys =>
      by_cases hxy : x.toNat < y.toNat
      · exact Or.inl (by simp [leChars, hxy])
      · by_cases hyx : y.toNat < x.toNat
        · exact Or.inr (by simp [leChars, hyx])
        · rcases ih ys with h | h
          · exact Or.inl (by simp [leChars, hxy, hyx, h])
          · exact Or.inr (by simp [leChars, hxy, hyx, h])

theorem leChars_trans (a : List Char) :
    ∀ b c, leChars a b = true → leChars b c = true → leChars a c = true := by
  induction a with
  | nil => intro b c _ _; rfl
  | cons x xs ih =>
    intro b c hab hbc
    cases b with
    | nil => simp [leChars] at hab
    | cons y ys =>
      cases c with
      | nil => simp [leChars] at hbc
      | cons z zs =>
        simp only [leChars] at hab hbc ⊢
        by_cases hxy : x.toNat < y.toNat
        · by_cases hyz : y.toNat < z.toNat
          · have : x.toNat < z.toNat := hxy.trans hyz
            simp [this]
          · by_cases hzy : z.toNat < y.toNat
            · simp [hyz, hzy] at hbc
            · have : y.toNat = z.toNat := by omega
              simp [this ▸ hxy]
        · by_cases hyx : y.toNat < x.toNat
          · simp [hxy, hyx] at hab
          · have hxyeq : x.toNat = y.toNat := by omega
            by_cases hyz : y.toNat < z.toNat
            · simp [hxyeq ▸ hyz]
            · by_cases hzy : z.toNat < y.toNat
              · simp [hyz, hzy] at hbc
              · have hyzeq : y.toNat = z.toNat := by omega
                have h1 : ¬x.toNat < z.toNat := by omega
                have h2 : ¬z.toNat < x.toNat := by omega
                simp only [hxy, hyx, if_neg, ite_false] at hab
                simp only [hyz, hzy, if_neg, ite_false] at hbc
                simp [h1, h2, ih ys zs (by simpa using hab) (by simpa using hbc)]

theorem char_toNat_inj {x y : Char} (h : x.toNat = y.toNat) : x = y := by
  have := congrArg Char.ofNat h
  simpa using this

theorem leChars_antisymm (a : List Char) :
    ∀ b, leChars a b = true → leChars b a = true → a = b := by
  induction a with
  | nil =>
    intro b _ hba
    cases b with
    | nil => rfl
    | cons y ys => simp [leChars] at hba
  | cons x xs ih =>
    intro b hab hba
    cases b with
    | nil => simp [leChars] at hab
    | cons y ys =>
      simp only [leChars] at hab hba
      by_cases hxy : x.toNat < y.toNat
      · have : ¬y.toNat < x.toNat := by omega
        simp [hxy, this] at hba
      · by_cases hyx : y.toNat < x.toNat
        · simp [hxy, hyx] at hab
        · have hxyeq : x = y := char_toNat_inj (by omega)
          simp only [hxy, hyx, if_neg, ite_false] at hab hba
          rw [hxyeq, ih ys (by simpa using hab) (by simpa using hba)]

instance : IsTotal String strLe :=
  ⟨fun a b => leChars_total a.data b.data⟩

instance : IsTrans String strLe :=
  ⟨fun a b c => leChars_trans a.data b.data c.data⟩

instance : IsAntisymm String strLe :=
  ⟨fun a b hab hba => by
    cases a with
    | mk da =>
      cases b with
      | mk db => exact congrArg String.mk (leChars_antisymm da db hab hba)⟩

/-- Result of `sort.Strings` applied to the elements of a package set: the unique
`strLe`-sorted enumeration of the set.  Computed by insertion sort on any
list representation of the multiset — well defined because the sorted
permutation of a multiset is unique. -/
def sortPkgs (s : Finset String) : List String :=
  Quotient.liftOn s.val (fun l => List.insertionSort strLe l) fun a b h =>
    List.eq_of_perm_of_sorted
      ((List.perm_insertionSort _ a).trans
        (h.trans (List.perm_insertionSort _ b).symm))
      (List.sorted_insertionSort _ a) (List.sorted_insertionSort _ b)

/-- Function `flattened` from `kazel/generator.go`: copy the map, turning each
innermost package set into a slice sorted by `sort.Strings` (the loop
`for v := range subSet { append }` followed by `sort.Strings` enumerates
the set in some order and then sorts, which is exactly the unique sorted
enumeration). -/
def flattened (m : generatorTagsValuesPkgsMap) :
    List (String × List (String × List String)) :=
  m.map (fun tagSub =>
    (tagSub.1, tagSub.2.map (fun vSet => (vSet.1, sortPkgs vSet.2))))

/-! ## The filesystem model and `filepath.Walk` -/

/-- A directory tree.  A file's `content` is `none` when reading it fails
(`ioutil.ReadFile` errors); a directory's `readDirErr` is `some e` when
listing it fails, in which case `filepath.Walk` hands `e` to the walk
function.  Entries are stored in the order `readDirNames` yields them
(lexical order in Go). -/
inductive FSTree where
  | file (name : String) (content : Option String)
  | dir (name : String) (readDirErr : Option String) (entries : List FSTree)
deriving Repr

def FSTree.nodeName : FSTree → String
  | .file n _ => n
  | .dir n _ _ => n

def FSTree.isDirNode : FSTree → Bool
  | .file _ _ => false
  | .dir _ _ _ => true

/-- Path join, `filepath.Join(parent, name)`, for the clean relative paths the walk
builds (`Join(".", n)` cleans to `n`). -/
def joinPath (parent name : String) : String :=
  if parent = "." then name else parent ++ "/" ++ name

/-- Parent directory, `filepath.Dir`: everything before the last slash, or `"."` when there is
no slash. -/
def dirOf (p : String) : String :=
  match p.data.reverse.dropWhile (fun c => c ≠ '/') with
  | [] => "."
  | _ :: rest => String.mk rest.reverse

/-- Errors a walk function can return: `filepath.SkipDir` or a real error. -/
inductive WErr where
  | skipDir
  | err (msg : String)
deriving Repr, DecidableEq

/-- The walk's mutable state: the aggregate under construction, plus (as
instrumentation, not present in the Go code) the list of paths passed to
`ioutil.ReadFile`, in order. -/
structure WalkState where
  agg : generatorTagsValuesPkgsMap
  reads : List String
deriving DecidableEq

/-- The closure passed to `filepath.Walk` by `findGeneratorTags`: propagate
a traversal error, prune when a skip pattern matches `filepath.Dir(path)`,
ignore non-`.go` and `_test.go` paths, otherwise read the file and merge its
extracted tags under its directory.  A skip pattern is modelled as the
decidable predicate `r.MatchString`. -/
def walkFn (skips : List (String → Bool)) (requestedTags : List String)
    (path : String) (content : Option String) (err : Option String)
    (s : WalkState) : WalkState × Option WErr :=
  match err with
  | some e => (s, some (.err e))
  | none =>
    let pkg := dirOf path
    if skips.any (fun r => r pkg) then (s, some .skipDir)
    else if !hasSuffix path ".go" || hasSuffix path "_test.go" then (s, none)
    else
      match content with
      | none => (⟨s.agg, s.reads ++ [path]⟩, some (.err ("read " ++ path)))
      | some b =>
        (⟨mergeTags s.agg pkg (extractTags b requestedTags),
          s.reads ++ [path]⟩, none)

mutual
/-- The recursive worker of `filepath.Walk`: a non-directory is handed to
the walk function directly; for a directory the walk function runs first
(receiving any `readDirNames` error), then the entries are walked unless it
returned an error or the listing failed. -/
def walk (skips : List (String → Bool)) (requestedTags : List String)
    (path : String) (t : FSTree) (s : WalkState) : WalkState × Option WErr :=
  match t with
  | .file _ content => walkFn skips requestedTags path content none s
  | .dir _ readDirErr entries =>
    let r := walkFn skips requestedTags path none readDirErr s
    if readDirErr.isSome || r.2.isSome then r
    else walkList skips requestedTags path entries r.1

/-- The entry loop of `filepath.Walk`'s worker: `SkipDir` from a directory
child is swallowed (only that subtree is pruned), `SkipDir` from a file
child skips the remaining entries of the containing directory, and any
other error aborts. -/
def walkList (skips : List (String → Bool)) (requestedTags : List String)
    (parent : String) (ts : List FSTree) (s : WalkState) :
    WalkState × Option WErr :=
  match ts with
  | [] => (s, none)
  | t :: rest =>
    let r := walk skips requestedTags (joinPath parent t.nodeName) t s
    match r.2 with
    | none => walkList skips requestedTags parent rest r.1
    | some .skipDir =>
      if t.isDirNode then walkList skips requestedTags parent rest r.1
      else (r.1, some .skipDir)
    | some (.err e) => (r.1, some (.err e))
end

def initState : WalkState := ⟨[], []⟩

/-- Top level of `filepath.Walk(root, fn)`: run the worker on the root and turn a
top-level `SkipDir` into success. -/
def filewalkRun (skips : List (String → Bool)) (requestedTags : List String)
    (root : String) (t : FSTree) : WalkState × Option WErr :=
  let r := walk skips requestedTags root t initState
  match r.2 with
  | some .skipDir => (r.1, none)
  | _ => r

/-- Function `findGeneratorTags` from `kazel/generator.go`: walk the tree rooted at
`root`, aggregating extracted tags; on any walk error return the error and
no map (`return nil, walkErr`). -/
def findGeneratorTags (skips : List (String → Bool)) (root : String)
    (requestedTags : List String) (t : FSTree) :
    Except String generatorTagsValuesPkgsMap :=
  let r := filewalkRun skips requestedTags root t
  match r.2 with
  | some (.err e) => .error e
  | _ => .ok r.1.agg

deriving instance DecidableEq for Except

example :
    findGeneratorTags [] "." ["t"]
      (.dir "." none
        [.file "a.go" (some "// +k8s:t=v\n"),
         .file "b.go" (some "// +k8s:t=v\n")]) =
    .ok [("t", [("v", {"."})])] := by decide

example :
    findGeneratorTags [fun p => p = "skipme"] "." ["t"]
      (.dir "." none
        [.dir "skipme" none [.file "a.go" (some "// +k8s:t=v\n")],
         .file "b.go" (some "// +k8s:t=w\n")]) =
    .ok [("t", [("w", {"."})])] := by decide

/-! ## The generation pass: `walkGenerated` -/

/-- Result of `os.Stat` on the output path, classified the way lines
163–168 of `generator.go` classify it: success, `os.IsNotExist`, or any
other failure. -/
inductive StatRes where
  | ok
  | notFound
  | otherErr (msg : String)
deriving Repr, DecidableEq

/-- The configuration fields of `KazelCfg` that `walkGenerated` consumes
(`GoPrefix` is shortened to `goPfx`). -/
structure KazelCfg where
  k8sCodegenBzlFile : String
  k8sCodegenTags : List String
  goPfx : String
  k8sCodegenBoilerplateFile : String

/-- The world a `walkGenerated` call runs against: the `Vendorer`
configuration and skip patterns, the current directory tree, and the
outcomes of the file-system operations it may perform (boilerplate read,
output-file stat, existing output contents). -/
structure GenEnv where
  cfg : KazelCfg
  skippedK8sCodegenPaths : List (String → Bool)
  tree : FSTree
  boilerplate : Option String
  statOut : StatRes
  existing : Option String
  dryRun : Bool

/-- Instrumentation: the observable actions `walkGenerated` performs, in
order.  `calledWrite b` records that `writeFile` was invoked with
`fileExists = b`; `wrote` records an actual write to disk. -/
inductive GenAction where
  | walked
  | readBoilerplate
  | statted
  | calledWrite (fileExists : Bool)
  | wrote
deriving Repr, DecidableEq

/-- Modelled from the spec: the document serialization.  `varExpr`,
`addCommentBefore` and the Starlark formatter live outside this file
(`sourcerer.go` and the buildtools library); per the spec the document is
"a canonical textual form" of the header, the prefix binding, the tag-list
binding and the flattened index, so it is abstracted here as a plain
concatenation of that payload. -/
def serializeDoc (goPfx : String) (tags : List String)
    (idx : List (String × List (String × List String))) : String :=
  goPfx ++ String.join tags ++
    String.join (idx.map (fun t =>
      t.1 ++ String.join (t.2.map (fun v => v.1 ++ String.join v.2))))

/-- Modelled from the spec: `writeFile` (defined elsewhere in the tool)
"compares the serialized output against the current contents of the target
file on disk (if it exists); if identical, performs no write and reports
changed = false"; otherwise, and when not in dry-run mode, it writes and
reports `changed = true`.  Returns `(changed, wrote)`. -/
def writeFile (existing : Option String) (content : String)
    (fileExists dryRun : Bool) : Bool × Bool :=
  let changed := !fileExists || !(existing == some content)
  (changed, changed && !dryRun)

/-- Function `walkGenerated` from `kazel/generator.go`: skip generation when no
output file is configured; walk the tree for the configured tags; build the
document; read the boilerplate when configured; stat the output file,
treating only non-not-found failures as errors; finally hand everything to
`writeFile` with `fileExists = !os.IsNotExist(err)`. -/
def walkGenerated (env : GenEnv) : List GenAction × Bool × Option String :=
  if env.cfg.k8sCodegenBzlFile = "" then ([], false, none)
  else
    match findGeneratorTags env.skippedK8sCodegenPaths "."
        env.cfg.k8sCodegenTags env.tree with
    | .error e => ([.walked], false, some e)
    | .ok tagsValuesPkgs =>
      let doc := serializeDoc env.cfg.goPfx env.cfg.k8sCodegenTags
        (flattened tagsValuesPkgs)
      let bpStep : Option (List GenAction × String) :=
        if env.cfg.k8sCodegenBoilerplateFile = "" then
          some ([GenAction.walked], "")
        else
          match env.boilerplate with
          | none => none
          | some bp => some ([GenAction.walked, GenAction.readBoilerplate], bp)
      match bpStep with
      | none =>
        ([.walked, .readBoilerplate], false,
          some ("read " ++ env.cfg.k8sCodegenBoilerplateFile))
      | some (acts, bp) =>
        match env.statOut with
        | .otherErr m => (acts ++ [.statted], false, some m)
        | .ok =>
          let w := writeFile env.existing (bp ++ doc) true env.dryRun
          (acts ++ [.statted, .calledWrite true] ++
            (if w.2 then [.wrote] else []), w.1, none)
        | .notFound =>
          let w := writeFile env.existing (bp ++ doc) false env.dryRun
          (acts ++ [.statted, .calledWrite false] ++
            (if w.2 then [.wrote] else []), w.1, none)

/-! ## Helper lemmas -/

theorem splitCommaAux_ne_nil (l acc : List Char) : splitCommaAux l acc ≠ [] := by
  induction l generalizing acc with
  | nil => simp [splitCommaAux]
  | cons c rest ih =>
    unfold splitCommaAux
    by_cases hc : c = ','
    · simp [hc]
    · simpa [hc] using ih (c :: acc)

theorem splitComma_ne_nil (s : String) : splitComma s ≠ [] :=
  splitCommaAux_ne_nil s.data []

theorem mem_updAssoc {β : Type} {k : String} {f : Option β → β}
    {l : List (String × β)} {k' : String} {b' : β}
    (h : (k', b') ∈ updAssoc k f l) :
    (k', b') ∈ l ∨ (k' = k ∧ ∃ o, b' = f o) := by
  induction l with
  | nil =>
    simp only [updAssoc, List.mem_singleton, Prod.mk.injEq] at h
    exact Or.inr ⟨h.1, none, h.2⟩
  | cons hd tl ih =>
    obtain ⟨k0, b0⟩ := hd
    simp only [updAssoc] at h
    by_cases hk : k0 = k
    · rw [if_pos hk] at h
      rcases List.mem_cons.mp h with h | h
      · obtain ⟨h1, h2⟩ := Prod.mk.injEq .. ▸ h
        exact Or.inr ⟨h1.trans hk, some b0, h2⟩
      · exact Or.inl (List.mem_cons_of_mem _ h)
    · rw [if_neg hk] at h
      rcases List.mem_cons.mp h with h | h
      · exact Or.inl (h ▸ List.mem_cons_self _ _)
      · rcases ih h with h | h
        · exact Or.inl (List.mem_cons_of_mem _ h)
        · exact Or.inr h

theorem lookupTag_updAssoc (k : String) (f : Option (List String) → List String)
    (l : List (String × List String)) :
    lookupTag k (updAssoc k f l) = some (f (lookupTag k l)) := by
  induction l with
  | nil => simp [updAssoc, lookupTag]
  | cons hd tl ih =>
    obtain ⟨k0, b0⟩ := hd
    by_cases hk : k0 = k
    · simp [updAssoc, lookupTag, hk]
    · simp [updAssoc, lookupTag, hk, ih]

theorem lookupTag_updAssoc_ne (k t : String)
    (f : Option (List String) → List String)
    (l : List (String × List String)) (hne : k ≠ t) :
    lookupTag t (updAssoc k f l) = lookupTag t l := by
  induction l with
  | nil => simp [updAssoc, lookupTag, hne]
  | cons hd tl ih =>
    obtain ⟨k0, b0⟩ := hd
    by_cases hk : k0 = k
    · simp [updAssoc, lookupTag, hk, hne]
    · by_cases ht : k0 = t
      · simp [updAssoc, lookupTag, hk, ht, Ne.symm hne]
      · simp [updAssoc, lookupTag, hk, ht, ih]

theorem mem_foldl_tagStep (req : List String) (ms : List (String × String)) :
    ∀ acc k vs, (k, vs) ∈ List.foldl (tagStep req) acc ms →
      (k, vs) ∈ acc ∨ (k ∈ req ∧ vs ≠ []) := by
  induction ms with
  | nil => intro acc k vs h; exact Or.inl (by simpa using h)
  | cons m rest ih =>
    intro acc k vs h
    rw [List.foldl_cons] at h
    rcases ih _ k vs h with h1 | h1
    · unfold tagStep at h1
      by_cases hc : req.contains m.1
      · rw [if_pos hc] at h1
        rcases mem_updAssoc h1 with h2 | ⟨hk, o, ho⟩
        · exact Or.inl h2
        · refine Or.inr ⟨?_, ?_⟩
          · rw [hk]; simpa using hc
          · rw [ho]
            intro hnil
            exact splitComma_ne_nil m.2 (List.append_eq_nil.mp hnil).2
      · rw [if_neg hc] at h1
        exact Or.inl h1
    · exact Or.inr h1

/-- Reference value sequence for tag `t`: the comma-splits of the payloads
of the `t`-matches of the text, concatenated in match order. -/
def matchValues (ms : List (String × String)) (t : String) : List String :=
  ((ms.filter (fun m => m.1 = t)).map (fun m => splitComma m.2)).flatten

theorem lookupTag_foldl_tagStep (req : List String) (t : String)
    (ht : t ∈ req) (ms : List (String × String)) :
    ∀ acc, (lookupTag t (List.foldl (tagStep req) acc ms)).getD [] =
      (lookupTag t acc).getD [] ++ matchValues ms t := by
  induction ms with
  | nil => intro acc; simp [matchValues]
  | cons m rest ih =>
    intro acc
    rw [List.foldl_cons, ih (tagStep req acc m)]
    unfold tagStep
    by_cases hmt : m.1 = t
    · have hc : req.contains m.1 = true := by rw [hmt]; simpa using ht
      rw [if_pos hc, hmt, lookupTag_updAssoc]
      simp [matchValues, List.filter_cons, hmt, List.append_assoc]
    · by_cases hc : req.contains m.1
      · rw [if_pos hc, lookupTag_updAssoc_ne m.1 t _ _ hmt]
        simp [matchValues, List.filter_cons, hmt]
      · rw [if_neg hc]
        simp [matchValues, List.filter_cons, hmt]

/-! ## Claims about the Tag Extractor -/

/-- C3: For every input content and every `requestedTags` set, every key
of the mapping returned by `extractTags` is a member of `requestedTags`
(annotations for unrequested tag names are silently discarded), and when no
annotation matches, `extractTags` returns the empty mapping rather than an
error. -/
theorem extractTags_only_requested (b : String) (requestedTags : List String) :
    (∀ k vs, (k, vs) ∈ extractTags b requestedTags → k ∈ requestedTags) ∧
    (findMatches b.data = [] → extractTags b requestedTags = []) := by
  constructor
  · intro k vs h
    unfold extractTags buildTags at h
    rcases mem_foldl_tagStep requestedTags (findMatches b.data) [] k vs h with
      h | h
    · simp at h
    · exact h.1
  · intro h
    unfold extractTags buildTags
    rw [h]
    rfl

theorem extractTags_only_requested_witness :
    "t" ∈ ["t"] ∧ extractTags "plain text, no annotations" ["t"] = [] :=
  ⟨(extractTags_only_requested "// +k8s:t=v\n// +k8s:u=w\n" ["t"]).1 "t" ["v"]
      (by decide),
   (extractTags_only_requested "plain text, no annotations" ["t"]).2
      (by decide)⟩

/-- C4: For every content and requested tag `t`, the value list that
`extractTags` associates to `t` is exactly the concatenation, in source-text
match order, of the comma-splits of the payloads of the `t`-annotations:
sub-values keep their left-to-right order within one match, and the values
of later matches are appended after those of earlier matches. -/
theorem extractTags_value_order (b : String) (requestedTags : List String)
    (t : String) (ht : t ∈ requestedTags) :
    (lookupTag t (extractTags b requestedTags)).getD [] =
      matchValues (findMatches b.data) t := by
  unfold extractTags buildTags
  rw [lookupTag_foldl_tagStep requestedTags t ht (findMatches b.data) []]
  rfl

theorem extractTags_value_order_witness :
    (lookupTag "t"
        (extractTags "// +k8s:t=a,b,c\n// +k8s:t=d\n" ["t"])).getD [] =
      matchValues (findMatches ("// +k8s:t=a,b,c\n// +k8s:t=d\n").data) "t" ∧
    matchValues (findMatches ("// +k8s:t=a,b,c\n// +k8s:t=d\n").data) "t" =
      ["a", "b", "c", "d"] :=
  ⟨extractTags_value_order "// +k8s:t=a,b,c\n// +k8s:t=d\n" ["t"] "t"
      (by decide),
   by decide⟩

/-- C10: the function `extractTags` can return empty strings as values: a payload
with consecutive (or trailing) commas such as `a,,b` is split on every
comma with no filtering of empty pieces; and a tag key, when present in the
result, always maps to a list with at least one (possibly empty-string)
value. -/
theorem extractTags_empty_string_values :
    extractTags "// +k8s:t=a,,b\n" ["t"] = [("t", ["a", "", "b"])] ∧
    ∀ b requestedTags k vs,
      (k, vs) ∈ extractTags b requestedTags → vs ≠ [] := by
  constructor
  · decide
  · intro b req k vs h
    unfold extractTags buildTags at h
    rcases mem_foldl_tagStep req (findMatches b.data) [] k vs h with h | h
    · simp at h
    · exact h.2

theorem extractTags_empty_string_values_witness :
    (["a", ""] : List String) ≠ [] :=
  extractTags_empty_string_values.2 "// +k8s:t=a,\n" ["t"] "t" ["a", ""]
    (by decide)

/-! ## Claims about the Flattener and set semantics -/

theorem sortPkgs_sorted (s : Finset String) :
    (sortPkgs s).Sorted strLe := by
  obtain ⟨v, hv⟩ := s
  induction v using Quotient.inductionOn with
  | h l => exact List.sorted_insertionSort strLe l

theorem sortPkgs_nodup (s : Finset String) : (sortPkgs s).Nodup := by
  obtain ⟨v, hv⟩ := s
  induction v using Quotient.inductionOn with
  | h l =>
    exact ((List.perm_insertionSort strLe l).nodup_iff).mpr (by simpa using hv)

theorem mem_sortPkgs {s : Finset String} {a : String} :
    a ∈ sortPkgs s ↔ a ∈ s := by
  obtain ⟨v, hv⟩ := s
  induction v using Quotient.inductionOn with
  | h l =>
    have hp : a ∈ List.insertionSort strLe l ↔ a ∈ l :=
      (List.perm_insertionSort strLe l).mem_iff
    constructor
    · intro h
      exact Finset.mem_def.mpr (Multiset.mem_coe.mpr (hp.mp h))
    · intro h
      exact hp.mpr (Multiset.mem_coe.mp (Finset.mem_def.mp h))

/-- C2: For every `generatorTagsValuesPkgsMap` and every (tag, value)
pair in it, the leaf sequence produced by `flattened` is sorted
lexicographically and contains no duplicates — independent of the order in
which files were visited or packages inserted, since the innermost
collection is a set.  `flattened` is a total function with no error case. -/
theorem flattened_sorted_nodup (m : generatorTagsValuesPkgsMap)
    (tag : String) (sub : List (String × List String)) (v : String)
    (l : List String) (hts : (tag, sub) ∈ flattened m) (hvl : (v, l) ∈ sub) :
    l.Sorted strLe ∧ l.Nodup := by
  unfold flattened at hts
  rcases List.mem_map.mp hts with ⟨a, _, hae⟩
  have hsub : sub = a.2.map (fun vSet => (vSet.1, sortPkgs vSet.2)) :=
    ((Prod.mk.injEq _ _ _ _).mp hae).2.symm
  rw [hsub] at hvl
  rcases List.mem_map.mp hvl with ⟨p, _, hpe⟩
  have hl : l = sortPkgs p.2 := ((Prod.mk.injEq _ _ _ _).mp hpe).2.symm
  rw [hl]
  exact ⟨sortPkgs_sorted _, sortPkgs_nodup _⟩

theorem flattened_sorted_nodup_witness :
    (["a", "b"] : List String).Sorted strLe ∧
    (["a", "b"] : List String).Nodup :=
  flattened_sorted_nodup [("t", [("v", {"b", "a"})])] "t" [("v", ["a", "b"])]
    "v" ["a", "b"] (by decide) (by decide)

theorem updAssoc_updAssoc {β : Type} (k : String) (f g : Option β → β)
    (l : List (String × β)) :
    updAssoc k f (updAssoc k g l) = updAssoc k (fun o => f (some (g o))) l := by
  induction l with
  | nil => simp [updAssoc]
  | cons hd tl ih =>
    obtain ⟨k0, b0⟩ := hd
    by_cases hk : k0 = k
    · simp [updAssoc, hk]
    · simp [updAssoc, hk, ih]

theorem insertPkg_insertPkg (m : generatorTagsValuesPkgsMap)
    (tag v pkg : String) :
    insertPkg (insertPkg m tag v pkg) tag v pkg = insertPkg m tag v pkg := by
  unfold insertPkg
  rw [updAssoc_updAssoc]
  have hw : (fun o2 : Option (Finset String) =>
      insert pkg ((some (insert pkg (o2.getD ∅))).getD ∅)) =
      (fun o2 : Option (Finset String) => insert pkg (o2.getD ∅)) := by
    funext o2
    simp
  have hf : (fun o : Option (List (String × Finset String)) =>
      updAssoc v (fun o2 => insert pkg (o2.getD ∅))
        ((some (updAssoc v (fun o2 => insert pkg (o2.getD ∅)) (o.getD []))).getD
          [])) =
      (fun o : Option (List (String × Finset String)) =>
        updAssoc v (fun o2 => insert pkg (o2.getD ∅)) (o.getD [])) := by
    funext o
    simp only [Option.getD_some]
    rw [updAssoc_updAssoc, hw]
  rw [hf]

/-- C5: The package-identifier sets built by `findGeneratorTags` obey
set semantics: the merge step is idempotent (inserting the same
tag/value/package twice equals inserting it once, as happens when multiple
files of one directory carry the same tag and value), and in any aggregate
the walk returns, a member package appears exactly once in the flattened
(tag, value) package sequence. -/
theorem findGeneratorTags_set_semantics :
    (∀ (m : generatorTagsValuesPkgsMap) (tag v pkg : String),
      insertPkg (insertPkg m tag v pkg) tag v pkg = insertPkg m tag v pkg) ∧
    (∀ (skips : List (String → Bool)) (root : String)
       (requestedTags : List String) (t : FSTree)
       (agg : generatorTagsValuesPkgsMap) (tag : String)
       (sub : List (String × Finset String)) (v : String)
       (pkgs : Finset String) (p : String),
      findGeneratorTags skips root requestedTags t = .ok agg →
      (tag, sub) ∈ agg → (v, pkgs) ∈ sub → p ∈ pkgs →
      (sortPkgs pkgs).count p = 1) := by
  constructor
  · exact insertPkg_insertPkg
  · intro _ _ _ _ _ _ _ _ pkgs p _ _ _ hp
    exact List.count_eq_one_of_mem (sortPkgs_nodup _)
      (mem_sortPkgs.mpr hp)

theorem findGeneratorTags_set_semantics_witness :
    ((sortPkgs {"."}).count "." = 1) :=
  findGeneratorTags_set_semantics.2 [] "." ["t"]
    (.dir "." none
      [.file "a.go" (some "// +k8s:t=v\n"),
       .file "b.go" (some "// +k8s:t=v\n")])
    [("t", [("v", {"."})])] "t" [("v", {"."})] "v" {"."} "."
    (by decide) (by decide) (by decide) (by decide)

/-! ## Claims about the Tree Walker -/

theorem dirOf_joinPath (p n : String) (h : '/' ∉ n.data) :
    dirOf (joinPath p n) = p := by
  unfold joinPath
  by_cases hp : p = "."
  · rw [if_pos hp, hp]
    unfold dirOf
    have hnil : n.data.reverse.dropWhile (fun c => c ≠ '/') = [] := by
      rw [List.dropWhile_eq_nil_iff]
      intro c hc
      have hcmem : c ∈ n.data := List.mem_reverse.mp hc
      simp only [ne_eq, decide_eq_true_eq]
      rintro rfl
      exact h hcmem
    rw [hnil]
  · rw [if_neg hp]
    unfold dirOf
    have hdata : (p ++ "/" ++ n).data = p.data ++ '/' :: n.data := by
      simp [String.data_append]
    rw [hdata, List.reverse_append, List.reverse_cons, List.append_assoc,
      List.singleton_append]
    have hall : ∀ c ∈ n.data.reverse, (fun c => decide (c ≠ '/')) c = true := by
      intro c hc
      have hcmem : c ∈ n.data := List.mem_reverse.mp hc
      simp only [ne_eq, decide_eq_true_eq]
      rintro rfl
      exact h hcmem
    rw [List.dropWhile_append_of_pos hall]
    have : List.dropWhile (fun c => decide (c ≠ '/')) ('/' :: p.data.reverse) =
        '/' :: p.data.reverse := by
      rw [List.dropWhile_cons_of_neg (by simp)]
    rw [this]
    simp

/-- C7: For every visited file whose path does not end in `.go`, or ends
in `_test.go`, the walk function neither reads the file nor touches the
aggregate: the state is returned unchanged (so nothing is handed to the Tag
Extractor), and the only possible non-`nil` outcome is the `SkipDir` prune
decided before the suffix test. -/
theorem walk_file_filter (skips : List (String → Bool))
    (requestedTags : List String) (path n : String) (content : Option String)
    (s : WalkState)
    (h : hasSuffix path ".go" = false ∨ hasSuffix path "_test.go" = true) :
    (walk skips requestedTags path (.file n content) s).1 = s ∧
    ((walk skips requestedTags path (.file n content) s).2 = none ∨
     (walk skips requestedTags path (.file n content) s).2 = some .skipDir) := by
  have hsuf : (!hasSuffix path ".go" || hasSuffix path "_test.go") = true := by
    rcases h with h | h <;> simp [h]
  by_cases hskip : skips.any (fun r => r (dirOf path)) = true
  · simp [walk, walkFn, hskip]
  · simp [walk, walkFn, hskip, hsuf]

theorem walk_file_filter_witness :
    (walk [] ["t"] "README.md" (.file "README.md" (some "// +k8s:t=v\n"))
        initState).1 = initState ∧
    ((walk [] ["t"] "README.md" (.file "README.md" (some "// +k8s:t=v\n"))
        initState).2 = none ∨
     (walk [] ["t"] "README.md" (.file "README.md" (some "// +k8s:t=v\n"))
        initState).2 = some .skipDir) :=
  walk_file_filter [] ["t"] "README.md" "README.md" (some "// +k8s:t=v\n")
    initState (Or.inl (by decide))

/-- Under a matched skip pattern on the parent path `p`, walking any entry
list leaves the state untouched: every direct child computes `pkg = p` and
is pruned by `SkipDir` (or aborts on a listing error) before anything is
read, and no deeper node is ever visited. -/
theorem walkList_skipall (skips : List (String → Bool))
    (requestedTags : List String) (p : String) (es : List FSTree)
    (s : WalkState) (hmatch : skips.any (fun r => r p) = true)
    (hnames : ∀ c ∈ es, '/' ∉ (FSTree.nodeName c).data) :
    (walkList skips requestedTags p es s).1 = s := by
  induction es with
  | nil => simp [walkList]
  | cons c rest ih =>
    have hd : dirOf (joinPath p c.nodeName) = p :=
      dirOf_joinPath p c.nodeName (hnames c (List.mem_cons_self c rest))
    have ihr := ih (fun c hc => hnames c (List.mem_cons_of_mem _ hc))
    have hex : ∃ x ∈ skips, x p = true := by simpa using hmatch
    cases c with
    | file n content =>
      have hd2 : dirOf (joinPath p n) = p := by
        simpa [FSTree.nodeName] using hd
      simp [walkList, walk, walkFn, FSTree.nodeName, FSTree.isDirNode,
        hd2, hex]
    | dir n re es2 =>
      cases re with
      | some e =>
        simp [walkList, walk, walkFn]
      | none =>
        have hd2 : dirOf (joinPath p n) = p := by
          simpa [FSTree.nodeName] using hd
        simp [walkList, walk, walkFn, FSTree.nodeName, FSTree.isDirNode,
          hd2, hex, ihr]

/-- C1: If a directory's path `p` matches a configured skip pattern,
the walk prunes the entire subtree rooted there: the aggregate index is
exactly as before (the subtree contributes zero entries), and no file below
`p` is ever read — the only path that can be added to the read trace is `p`
itself (the attempt, before any child is visited, to read a directory whose
own name ends in `.go`, which fails and aborts the walk). -/
theorem walk_prunes_skipped (skips : List (String → Bool))
    (requestedTags : List String) (p name : String) (re : Option String)
    (es : List FSTree) (s : WalkState)
    (hmatch : skips.any (fun r => r p) = true)
    (hnames : ∀ c ∈ es, '/' ∉ (FSTree.nodeName c).data) :
    (walk skips requestedTags p (.dir name re es) s).1.agg = s.agg ∧
    (∀ q ∈ (walk skips requestedTags p (.dir name re es) s).1.reads,
      q ∈ s.reads ∨ q = p) := by
  cases re with
  | some e =>
    have hres : walk skips requestedTags p (.dir name (some e) es) s =
        (s, some (.err e)) := by
      simp [walk, walkFn]
    rw [hres]
    exact ⟨rfl, fun q hq => Or.inl hq⟩
  | none =>
    by_cases hskip : skips.any (fun r => r (dirOf p)) = true
    · have hex : ∃ x ∈ skips, x (dirOf p) = true := by simpa using hskip
      have hres : walk skips requestedTags p (.dir name none es) s =
          (s, some .skipDir) := by
        simp [walk, walkFn, hex]
      rw [hres]
      exact ⟨rfl, fun q hq => Or.inl hq⟩
    · have hex : ¬∃ x ∈ skips, x (dirOf p) = true := by
        simpa using hskip
      by_cases hgo :
          (!hasSuffix p ".go" || hasSuffix p "_test.go") = true
      · have hgo2 : hasSuffix p ".go" = false ∨
            hasSuffix p "_test.go" = true := by
          rcases Bool.or_eq_true_iff.mp hgo with h | h
          · exact Or.inl (by simpa using h)
          · exact Or.inr h
        have hw := walkList_skipall skips requestedTags p es s hmatch hnames
        have h1 : walk skips requestedTags p (.dir name none es) s =
            walkList skips requestedTags p es s := by
          simp [walk, walkFn, hex, hgo2]
        rw [h1, hw]
        exact ⟨rfl, fun q hq => Or.inl hq⟩
      · have hgo2 : ¬(hasSuffix p ".go" = false ∨
            hasSuffix p "_test.go" = true) := by
          intro hc
          rcases hc with hc | hc <;> simp [hc] at hgo
        have hres : walk skips requestedTags p (.dir name none es) s =
            (⟨s.agg, s.reads ++ [p]⟩, some (.err ("read " ++ p))) := by
          simp [walk, walkFn, hex, hgo2]
        rw [hres]
        refine ⟨rfl, fun q hq => ?_⟩
        rcases List.mem_append.mp hq with h | h
        · exact Or.inl h
        · exact Or.inr (by simpa using h)
theorem walk_prunes_skipped_witness :
    (walk [fun q => q = "vendor"] ["t"] "vendor"
        (.dir "vendor" none
          [.file "x.go" (some "// +k8s:t=v\n"),
           .dir "sub" none [.file "y.go" (some "// +k8s:t=w\n")]])
        initState).1.agg = initState.agg ∧
    (∀ q ∈ (walk [fun q => q = "vendor"] ["t"] "vendor"
        (.dir "vendor" none
          [.file "x.go" (some "// +k8s:t=v\n"),
           .dir "sub" none [.file "y.go" (some "// +k8s:t=w\n")]])
        initState).1.reads, q ∈ initState.reads ∨ q = "vendor") :=
  walk_prunes_skipped [fun q => q = "vendor"] ["t"] "vendor" "vendor" none
    [.file "x.go" (some "// +k8s:t=v\n"),
     .dir "sub" none [.file "y.go" (some "// +k8s:t=w\n")]]
    initState (by decide) (by decide)

/-- When a prefix of the entry list walks to completion without error, the
walk of the full list continues from the reached state. -/
theorem walkList_append (skips : List (String → Bool))
    (requestedTags : List String) (p : String) (l1 l2 : List FSTree)
    (s s1 : WalkState)
    (h : walkList skips requestedTags p l1 s = (s1, none)) :
    walkList skips requestedTags p (l1 ++ l2) s =
      walkList skips requestedTags p l2 s1 := by
  induction l1 generalizing s with
  | nil =>
    simp only [walkList] at h
    obtain ⟨rfl, -⟩ := Prod.mk.injEq .. ▸ h
    simp
  | cons c rest ih =>
    rw [List.cons_append]
    simp only [walkList] at h ⊢
    rcases hr : (walk skips requestedTags (joinPath p c.nodeName) c s).2 with
      - | e
    · rw [hr] at h
      simp only at h
      exact ih _ h
    · cases e with
      | skipDir =>
        rw [hr] at h
        by_cases hdir : c.isDirNode = true
        · simp only [hdir, if_true] at h ⊢
          exact ih _ h
        · rw [Bool.not_eq_true] at hdir
          simp [hdir] at h
      | err e2 =>
        rw [hr] at h
        simp at h

/-- Failure to read a candidate source file (a `.go`, non-`_test.go` entry
whose directory is not skipped) aborts the walk of the containing entry
list at that entry: the read error is returned and the entries after it
are never processed, whatever the position in the tree. -/
theorem walkList_read_error (skips : List (String → Bool))
    (requestedTags : List String) (p n : String) (pre post : List FSTree)
    (s s1 : WalkState)
    (hpre : walkList skips requestedTags p pre s = (s1, none))
    (hskip : skips.any (fun r => r (dirOf (joinPath p n))) = false)
    (hgo : hasSuffix (joinPath p n) ".go" = true)
    (htest : hasSuffix (joinPath p n) "_test.go" = false) :
    walkList skips requestedTags p (pre ++ .file n none :: post) s =
      (⟨s1.agg, s1.reads ++ [joinPath p n]⟩,
        some (.err ("read " ++ joinPath p n))) := by
  have hex : ¬∃ x ∈ skips, x (dirOf (joinPath p n)) = true := by
    simpa using hskip
  have hgo2 : ¬(hasSuffix (joinPath p n) ".go" = false ∨
      hasSuffix (joinPath p n) "_test.go" = true) := by
    intro hc
    rcases hc with hc | hc
    · rw [hgo] at hc; exact Bool.noConfusion hc
    · rw [htest] at hc; exact Bool.noConfusion hc
  rw [walkList_append skips requestedTags p pre (.file n none :: post) s s1
    hpre]
  simp [walkList, walk, walkFn, FSTree.nodeName, FSTree.isDirNode, hex, hgo2]

/-- An error from the traversal primitive itself — `readDirNames` failing on
a subdirectory, which `filepath.Walk` hands to the walk function and the
walk function returns unchanged (its `err != nil` check runs before
anything else) — aborts the walk of the containing entry list at that
entry: nothing below the failing directory and nothing after it is
processed, and the state is exactly the one reached before it. -/
theorem walkList_traversal_error (skips : List (String → Bool))
    (requestedTags : List String) (p n e : String) (es2 : List FSTree)
    (pre post : List FSTree) (s s1 : WalkState)
    (hpre : walkList skips requestedTags p pre s = (s1, none)) :
    walkList skips requestedTags p (pre ++ .dir n (some e) es2 :: post) s =
      (s1, some (.err e)) := by
  rw [walkList_append skips requestedTags p pre
    (.dir n (some e) es2 :: post) s s1 hpre]
  simp [walkList, walk, walkFn, FSTree.nodeName, FSTree.isDirNode]

/-- C6: any error reading a file, and likewise any error supplied by the
traversal primitive (a directory-listing failure handed to the walk
function), aborts `findGeneratorTags` immediately.  The conjuncts state:
(1) whenever the underlying walk finishes with an error, `findGeneratorTags`
returns exactly that error and no aggregate map (`Except.error` carries no
map — `return nil, walkErr`); (2) a failing read of a candidate `.go` file
stops the walk of its entry list on the spot, with the entries after it
untouched, at any position in the tree; (3) the same for a traversal error
on a subdirectory, with no hypothesis on names or suffixes; (4) and (5)
instantiate (2) and (3) at the root: a tree whose root entries are a
cleanly walked prefix, the failing node, and an arbitrary remainder makes
`findGeneratorTags` return the error. -/
theorem findGeneratorTags_error_aborts :
    (∀ (skips : List (String → Bool)) (requestedTags : List String)
       (root : String) (t : FSTree) (e : String),
      (filewalkRun skips requestedTags root t).2 = some (.err e) →
      findGeneratorTags skips root requestedTags t = .error e) ∧
    (∀ (skips : List (String → Bool)) (requestedTags : List String)
       (p n : String) (pre post : List FSTree) (s s1 : WalkState),
      walkList skips requestedTags p pre s = (s1, none) →
      skips.any (fun r => r (dirOf (joinPath p n))) = false →
      hasSuffix (joinPath p n) ".go" = true →
      hasSuffix (joinPath p n) "_test.go" = false →
      walkList skips requestedTags p (pre ++ .file n none :: post) s =
        (⟨s1.agg, s1.reads ++ [joinPath p n]⟩,
          some (.err ("read " ++ joinPath p n)))) ∧
    (∀ (skips : List (String → Bool)) (requestedTags : List String)
       (p n e : String) (es2 pre post : List FSTree) (s s1 : WalkState),
      walkList skips requestedTags p pre s = (s1, none) →
      walkList skips requestedTags p (pre ++ .dir n (some e) es2 :: post) s =
        (s1, some (.err e))) ∧
    (∀ (skips : List (String → Bool)) (requestedTags : List String)
       (root rootName n : String) (pre post : List FSTree) (s1 : WalkState),
      walkFn skips requestedTags root none none initState =
        (initState, none) →
      walkList skips requestedTags root pre initState = (s1, none) →
      skips.any (fun r => r (dirOf (joinPath root n))) = false →
      hasSuffix (joinPath root n) ".go" = true →
      hasSuffix (joinPath root n) "_test.go" = false →
      findGeneratorTags skips root requestedTags
          (.dir rootName none (pre ++ .file n none :: post)) =
        .error ("read " ++ joinPath root n)) ∧
    (∀ (skips : List (String → Bool)) (requestedTags : List String)
       (root rootName n e : String) (es2 pre post : List FSTree)
       (s1 : WalkState),
      walkFn skips requestedTags root none none initState =
        (initState, none) →
      walkList skips requestedTags root pre initState = (s1, none) →
      findGeneratorTags skips root requestedTags
          (.dir rootName none (pre ++ .dir n (some e) es2 :: post)) =
        .error e) := by
  refine ⟨?_, walkList_read_error, walkList_traversal_error, ?_, ?_⟩
  · intro skips requestedTags root t e h
    simp [findGeneratorTags, h]
  · intro skips requestedTags root rootName n pre post s1 hroot hpre hskip
      hgo htest
    have hwalk : walk skips requestedTags root
        (.dir rootName none (pre ++ .file n none :: post)) initState =
        walkList skips requestedTags root (pre ++ .file n none :: post)
          initState := by
      simp [walk, hroot]
    unfold findGeneratorTags filewalkRun
    rw [hwalk, walkList_read_error skips requestedTags root n pre post
      initState s1 hpre hskip hgo htest]
  · intro skips requestedTags root rootName n e es2 pre post s1 hroot hpre
    have hwalk : walk skips requestedTags root
        (.dir rootName none (pre ++ .dir n (some e) es2 :: post)) initState =
        walkList skips requestedTags root
          (pre ++ .dir n (some e) es2 :: post) initState := by
      simp [walk, hroot]
    unfold findGeneratorTags filewalkRun
    rw [hwalk, walkList_traversal_error skips requestedTags root n e es2 pre
      post initState s1 hpre]

theorem findGeneratorTags_error_aborts_witness :
    findGeneratorTags [] "." ["t"]
        (.dir "." none
          [.file "a.go" (some "// +k8s:t=v\n"),
           .file "bad.go" none,
           .file "z.go" (some "// +k8s:t=w\n")]) =
      .error ("read " ++ joinPath "." "bad.go") ∧
    findGeneratorTags [] "." ["t"]
        (.dir "." none
          [.file "a.go" (some "// +k8s:t=v\n"),
           .dir "locked" (some "permission denied")
             [.file "y.go" (some "// +k8s:t=w\n")],
           .file "z.go" (some "// +k8s:t=w\n")]) =
      .error "permission denied" :=
  ⟨findGeneratorTags_error_aborts.2.2.2.1 [] ["t"] "." "." "bad.go"
      [.file "a.go" (some "// +k8s:t=v\n")]
      [.file "z.go" (some "// +k8s:t=w\n")]
      ⟨[("t", [("v", {"."})])], ["a.go"]⟩
      (by decide) (by decide) (by decide) (by decide) (by decide),
   findGeneratorTags_error_aborts.2.2.2.2 [] ["t"] "." "." "locked"
      "permission denied"
      [.file "y.go" (some "// +k8s:t=w\n")]
      [.file "a.go" (some "// +k8s:t=v\n")]
      [.file "z.go" (some "// +k8s:t=w\n")]
      ⟨[("t", [("v", {"."})])], ["a.go"]⟩
      (by decide) (by decide)⟩

/-! ## Claims about the generation pass -/

/-- C9: If the configured output file path is empty, `walkGenerated`
skips generation entirely: it performs no action at all (no walk, no read,
no stat, no write) and returns `changed = false` with no error. -/
theorem walkGenerated_no_output_file (env : GenEnv)
    (h : env.cfg.k8sCodegenBzlFile = "") :
    walkGenerated env = ([], false, none) := by
  unfold walkGenerated
  rw [if_pos h]

/-- A generation environment with no configured output file. -/
def envNoOut : GenEnv where
  cfg := ⟨"", ["t"], "example.com/repo", ""⟩
  skippedK8sCodegenPaths := []
  tree := .dir "." none [.file "a.go" (some "// +k8s:t=v\n")]
  boilerplate := none
  statOut := .ok
  existing := none
  dryRun := false

theorem walkGenerated_no_output_file_witness :
    walkGenerated envNoOut = ([], false, none) :=
  walkGenerated_no_output_file envNoOut rfl

/-- C8: the pass `walkGenerated` stats the output file before diffing: a
"not found" result is not an error — generation proceeds and `writeFile`
is invoked with `fileExists = false` — while any other stat failure is
fatal: the pass returns `(false, error)` and `writeFile` is never invoked,
so nothing is written. -/
theorem walkGenerated_stat_handling (env : GenEnv) (m : String)
    (tvp : generatorTagsValuesPkgsMap)
    (hbzl : ¬env.cfg.k8sCodegenBzlFile = "")
    (hwalk : findGeneratorTags env.skippedK8sCodegenPaths "."
      env.cfg.k8sCodegenTags env.tree = .ok tvp)
    (hbp : env.cfg.k8sCodegenBoilerplateFile = "") :
    (env.statOut = .otherErr m →
      walkGenerated env = ([.walked, .statted], false, some m)) ∧
    (env.statOut = .notFound →
      walkGenerated env =
        ([.walked, .statted, .calledWrite false] ++
          (if env.dryRun then [] else [.wrote]), true, none)) := by
  unfold walkGenerated
  rw [if_neg hbzl, hwalk]
  simp only [hbp, if_pos]
  constructor
  · intro hstat
    rw [hstat]
    simp
  · intro hstat
    rw [hstat]
    simp only [writeFile]
    cases hdry : env.dryRun <;> simp

/-- A generation environment whose output-file stat fails hard. -/
def envStatErr : GenEnv where
  cfg := ⟨"gen.bzl", ["t"], "example.com/repo", ""⟩
  skippedK8sCodegenPaths := []
  tree := .dir "." none [.file "a.go" (some "// +k8s:t=v\n")]
  boilerplate := none
  statOut := .otherErr "stat failed"
  existing := none
  dryRun := false

/-- A generation environment where the output file does not exist yet. -/
def envStatNotFound : GenEnv where
  cfg := ⟨"gen.bzl", ["t"], "example.com/repo", ""⟩
  skippedK8sCodegenPaths := []
  tree := .dir "." none [.file "a.go" (some "// +k8s:t=v\n")]
  boilerplate := none
  statOut := .notFound
  existing := none
  dryRun := false

theorem walkGenerated_stat_handling_witness :
    walkGenerated envStatErr = ([.walked, .statted], false, some "stat failed") ∧
    walkGenerated envStatNotFound =
      ([.walked, .statted, .calledWrite false, .wrote], true, none) := by
  constructor
  · exact (walkGenerated_stat_handling envStatErr "stat failed"
      [("t", [("v", {"."})])] (by decide) (by decide) rfl).1 rfl
  · have h := (walkGenerated_stat_handling envStatNotFound ""
      [("t", [("v", {"."})])] (by decide) (by decide) rfl).2 rfl
    simpa using h
